import Mathlib

/-!
Verification of the fuzzy resolution subsystem of an MCP documentation
server.  Strings are modelled as `List Char`; the TypeScript functions in
`src/lib/utils/fuzzy-finder.ts`, `src/lib/mcp/tools-resources.ts` and
`src/lib/mcp/tools-datasources.ts` are embedded as executable Lean
functions, and the properties of the specification are settled against
them.
-/

namespace McpDocs

/-- ASCII lower-casing of a single character, modelling
`String.prototype.toLowerCase` on the ASCII range. -/
def toLowerChar (c : Char) : Char :=
  if 65 ≤ c.toNat ∧ c.toNat ≤ 90 then Char.ofNat (c.toNat + 32) else c

/-- Characters kept by the regex replacement `replace(/[^a-z0-9]/g, "")`:
lower-case ASCII letters and digits. -/
def isAsciiAlnum (c : Char) : Bool :=
  (97 ≤ c.toNat && c.toNat ≤ 122) || (48 ≤ c.toNat && c.toNat ≤ 57)

/-- The optional separator `[ _-]?` following the vendor token in the regex
`/^(aws|amazon)[ _-]?/i`: drop one leading space, underscore or hyphen. -/
def dropSeparator : List Char → List Char
  | [] => []
  | c :: rest => if c = ' ' || c = '_' || c = '-' then rest else c :: rest

/-- The replacement `replace(/^(aws|amazon)[ _-]?/i, "")` applied to an
already lower-cased string: strip one leading `aws` or `amazon` token
together with an optional single separator. -/
def stripVendorToken (s : List Char) : List Char :=
  if s.take 3 = ['a', 'w', 's'] then dropSeparator (s.drop 3)
  else if s.take 6 = ['a', 'm', 'a', 'z', 'o', 'n'] then dropSeparator (s.drop 6)
  else s

/-- `normaliseAWSResourceNameOrSubcategory` from `fuzzy-finder.ts`:
lower-case, strip a leading vendor token, keep only `[a-z0-9]`. -/
def normaliseAWSResourceNameOrSubcategory (input : List Char) : List Char :=
  (stripVendorToken (input.map toLowerChar)).filter isAsciiAlnum

/-- Row `i + 1` of the Levenshtein dynamic-programming matrix of
`fuzzy-finder.ts`, as a function of row `i` (`prev`).  Column `0` keeps its
initialisation value `i + 1`; column `j + 1` is `prev j` when
`a[i] == b[j]` and otherwise the minimum of deletion (`matrix[i-1][j]+1`),
insertion (`matrix[i][j-1]+1`) and substitution (`matrix[i-1][j-1]+1`),
in the order of the source's `Math.min` call. -/
def levRowFun (a b : List Char) (i : Nat) (prev : Nat → Nat) : Nat → Nat
  | 0 => i + 1
  | j + 1 =>
    if a.getD i ' ' = b.getD j ' ' then prev j
    else
      min (prev (j + 1) + 1)
        (min (levRowFun a b i prev j + 1) (prev j + 1))

/-- The final contents of the DP matrix built by `levenshtein` in
`fuzzy-finder.ts`: row `0` is the initialisation `j`, and each later row is
computed from the previous one. -/
def levMatrix (a b : List Char) : Nat → Nat → Nat
  | 0, j => j
  | i + 1, j => levRowFun a b i (levMatrix a b i) j

/-- `levenshtein` from `fuzzy-finder.ts`: the bottom-right entry
`matrix[a.length][b.length]` of the DP matrix. -/
def levenshtein (a b : List Char) : Nat :=
  levMatrix a b a.length b.length

/-- The loop of `findBestFuzzyMatch`: scan candidates left to right,
keeping the first index achieving the running minimum distance (the update
fires only on a strict `dist < minDist`).  The accumulator is `none` while
`bestIndex === -1` / `minDist === Infinity` and `some (bestIndex, minDist)`
afterwards. -/
def findBestFuzzyMatchGo (target : List Char) :
    List (List Char) → Nat → Option (Nat × Nat) → Option (Nat × Nat)
  | [], _, acc => acc
  | c :: cs, i, acc =>
    let dist := levenshtein target c
    let acc' :=
      match acc with
      | none => some (i, dist)
      | some (bi, md) => if dist < md then some (i, dist) else some (bi, md)
    findBestFuzzyMatchGo target cs (i + 1) acc'

/-- `findBestFuzzyMatch` from `fuzzy-finder.ts`: returns
`{match, index, distance}` when the scan found an index and the minimum
distance is within the threshold, else `null`. -/
def findBestFuzzyMatch (target : List Char) (candidates : List (List Char))
    (threshold : Nat) : Option (List Char × Nat × Nat) :=
  match findBestFuzzyMatchGo target candidates 0 none with
  | some (bi, md) =>
    if md ≤ threshold then some (candidates.getD bi [], bi, md) else none
  | none => none

/-- `removeAwsPrefixFromFileName` from `fuzzy-finder.ts`: the replacement
`replace(/^aws[-_]/, "")`, stripping a literal leading `aws-` or `aws_`. -/
def removeAwsPrefixFromFileName (fileName : List Char) : List Char :=
  if fileName.take 4 = ['a', 'w', 's', '-'] then fileName.drop 4
  else if fileName.take 4 = ['a', 'w', 's', '_'] then fileName.drop 4
  else fileName

/-- `file_path.split("/").pop() || ""`: the segment after the last slash
(the empty string when the path ends in a slash or is empty). -/
def lastSegment (s : List Char) : List Char :=
  (s.reverse.takeWhile (fun c => !(c = '/'))).reverse

/-- `fileName.replace(/\.html\.markdown$/, "")`: strip the final
`.html.markdown` suffix when present. -/
def stripDocExt (s : List Char) : List Char :=
  if s.drop (s.length - 14) = ".html.markdown".toList ∧ 14 ≤ s.length then
    s.take (s.length - 14)
  else s

/-- One corpus entry of `listLocalAwsResourceDocsWithMetadata` from
`local-docs-api.ts` (the variant with headings and argument names). -/
structure ResourceDoc where
  id : List Char
  subcategory : List Char
  page_title : List Char
  description : List Char
  resource : List Char
  resource_description : List Char
  source : List Char
  file_path : List Char
  headings : List (List Char)
  argument_names : List (List Char)
  deriving DecidableEq

/-- One corpus entry of `listLocalAwsDatasourceDocsWithMetadata`. -/
structure DatasourceDoc where
  id : List Char
  subcategory : List Char
  page_title : List Char
  description : List Char
  datasource : List Char
  datasource_description : List Char
  source : List Char
  file_path : List Char
  headings : List (List Char)
  argument_names : List (List Char)
  deriving DecidableEq

/-- The candidate array built per resource document inside
`resolveResourceDocFileNameFromAWSResourceName`:
`[subcat, fileNorm, pageTitleNorm, descNorm, resDescNorm, ...headingsNorm,
...argNamesNorm]`.  Fields guarded by JS truthiness (`r.page_title ? … : ""`)
yield the empty string when the raw value is empty. -/
def buildResourceCandidates (r : ResourceDoc) : List (List Char) :=
  let fileName := lastSegment r.file_path
  let fileNameNoExt := stripDocExt fileName
  let subcat := normaliseAWSResourceNameOrSubcategory r.subcategory
  let fileNorm := normaliseAWSResourceNameOrSubcategory fileNameNoExt
  let pageTitleNorm :=
    if r.page_title ≠ [] then normaliseAWSResourceNameOrSubcategory r.page_title else []
  let descNorm :=
    if r.description ≠ [] then normaliseAWSResourceNameOrSubcategory r.description else []
  let resDescNorm :=
    if r.resource_description ≠ [] then
      normaliseAWSResourceNameOrSubcategory r.resource_description
    else []
  let headingsNorm := r.headings.map normaliseAWSResourceNameOrSubcategory
  let argNamesNorm := r.argument_names.map normaliseAWSResourceNameOrSubcategory
  [subcat, fileNorm, pageTitleNorm, descNorm, resDescNorm] ++ headingsNorm ++ argNamesNorm

/-- The candidate array built per datasource document inside
`resolveDatasourceDocFileNameFromAWSDatasourceName`:
`[subcat, fileNorm, pageTitleNorm, descNorm, dsNorm, ...headingsNorm,
...argNamesNorm]`. -/
def buildDatasourceCandidates (d : DatasourceDoc) : List (List Char) :=
  let fileName := lastSegment d.file_path
  let fileNorm := normaliseAWSResourceNameOrSubcategory (stripDocExt fileName)
  let subcat := normaliseAWSResourceNameOrSubcategory d.subcategory
  let pageTitleNorm :=
    if d.page_title ≠ [] then normaliseAWSResourceNameOrSubcategory d.page_title else []
  let descNorm :=
    if d.description ≠ [] then normaliseAWSResourceNameOrSubcategory d.description else []
  let dsNorm :=
    if d.datasource ≠ [] then normaliseAWSResourceNameOrSubcategory d.datasource else []
  let headingsNorm := d.headings.map normaliseAWSResourceNameOrSubcategory
  let argNamesNorm := d.argument_names.map normaliseAWSResourceNameOrSubcategory
  [subcat, fileNorm, pageTitleNorm, descNorm, dsNorm] ++ headingsNorm ++ argNamesNorm

/-- The per-candidate score of the resolver loops:
`findBestFuzzyMatch(userNorm, [candidate], threshold)?.distance ?? Infinity`,
with `none` standing for `Infinity`. -/
def cappedScore (userNorm candidate : List Char) : Option Nat :=
  (findBestFuzzyMatch userNorm [candidate] 3).map (fun r => r.2.2)

/-- The `if (score < bestScore)` update of the resolver loops, with `none`
standing for `bestScore === Infinity` / `bestMatchIdx === -1`. -/
def scanUpdate (best : Option (Nat × Nat)) (i : Nat) (score : Option Nat) :
    Option (Nat × Nat) :=
  match score, best with
  | none, b => b
  | some s, none => some (i, s)
  | some s, some (bi, bs) => if s < bs then some (i, s) else some (bi, bs)

/-- Inner loop of the resolvers over the candidates of document `i`,
skipping empty candidates (`if (!candidate) continue`). -/
def scanDoc (userNorm : List Char) :
    List (List Char) → Nat → Option (Nat × Nat) → Option (Nat × Nat)
  | [], _, best => best
  | c :: cs, i, best =>
    if c = [] then scanDoc userNorm cs i best
    else scanDoc userNorm cs i (scanUpdate best i (cappedScore userNorm c))

/-- Outer loop of the resolvers over the per-document candidate arrays. -/
def scanDocs (userNorm : List Char) :
    List (List (List Char)) → Nat → Option (Nat × Nat) → Option (Nat × Nat)
  | [], _, best => best
  | cs :: rest, i, best => scanDocs userNorm rest (i + 1) (scanDoc userNorm cs i best)

/-- The `{type: "text", text}` outcomes of the resolvers, separated by which
message the source builds: the missing-input error, the user-facing
"No matching … documentation found" message, the "file_path is missing"
error, and the success payload carrying just the returned text. -/
inductive ResolveResult where
  | errNoName : ResolveResult
  | notFound : ResolveResult
  | errMissingFilePath : ResolveResult
  | found : List Char → ResolveResult
  deriving DecidableEq

/-- `resolveResourceDocFileNameFromAWSResourceName` from
`tools-resources.ts`, with the corpus (the awaited
`listLocalAwsResourceDocsWithMetadata()`) passed as a parameter.  On
success the returned text is `resource.file_path`. -/
def resolveResourceDocFileNameFromAWSResourceName (awsResourceName : List Char)
    (resources : List ResourceDoc) : ResolveResult :=
  if awsResourceName = [] then .errNoName
  else
    let userNorm := normaliseAWSResourceNameOrSubcategory awsResourceName
    let candidates := resources.map buildResourceCandidates
    match scanDocs userNorm candidates 0 none with
    | none => .notFound
    | some (bi, _) =>
      match resources[bi]? with
      | none => .errMissingFilePath
      | some r => if r.file_path = [] then .errMissingFilePath else .found r.file_path

/-- `resolveDatasourceDocFileNameFromAWSDatasourceName` from
`tools-datasources.ts`.  On success the returned text is
`datasource.file_path.split("/").pop() || datasource.file_path`. -/
def resolveDatasourceDocFileNameFromAWSDatasourceName (awsDatasourceName : List Char)
    (datasources : List DatasourceDoc) : ResolveResult :=
  if awsDatasourceName = [] then .errNoName
  else
    let userNorm := normaliseAWSResourceNameOrSubcategory awsDatasourceName
    let candidates := datasources.map buildDatasourceCandidates
    match scanDocs userNorm candidates 0 none with
    | none => .notFound
    | some (bi, _) =>
      match datasources[bi]? with
      | none => .errMissingFilePath
      | some d =>
        if d.file_path = [] then .errMissingFilePath
        else
          let seg := lastSegment d.file_path
          .found (if seg = [] then d.file_path else seg)

/-! ### Reference edit-distance theory -/

/-- Structural reference formulation of the Levenshtein recurrence,
consuming both lists from the front.  The DP matrix entry
`levMatrix a b i j` equals `levF` on the reversed `i`- and `j`-prefixes. -/
def levF (a b : List Char) : Nat :=
  match a, b with
  | [], ys => ys.length
  | _ :: xs, [] => xs.length + 1
  | x :: xs, y :: ys =>
    if x = y then levF xs ys
    else min (levF xs (y :: ys) + 1) (min (levF (x :: xs) ys + 1) (levF xs ys + 1))
termination_by (a.length, b.length)

/-- Left-to-right alignments between two strings: `Aligns a b n` holds when
`a` can be rewritten to `b` by an alignment containing exactly `n`
substitution, deletion and insertion moves (and any number of copies). -/
inductive Aligns : List Char → List Char → Nat → Prop where
  | nil : Aligns [] [] 0
  | keep (x : Char) {xs ys : List Char} {n : Nat} :
      Aligns xs ys n → Aligns (x :: xs) (x :: ys) n
  | subst (x y : Char) {xs ys : List Char} {n : Nat} :
      Aligns xs ys n → Aligns (x :: xs) (y :: ys) (n + 1)
  | del (x : Char) {xs ys : List Char} {n : Nat} :
      Aligns xs ys n → Aligns (x :: xs) ys (n + 1)
  | ins (y : Char) {xs ys : List Char} {n : Nat} :
      Aligns xs ys n → Aligns xs (y :: ys) (n + 1)

/-- `insert(i, c)`: insert character `c` at position `i`. -/
def insertAt (s : List Char) (i : Nat) (c : Char) : List Char :=
  s.take i ++ c :: s.drop i

/-- `delete(i)`: remove the character at position `i`. -/
def removeAt (s : List Char) (i : Nat) : List Char :=
  s.take i ++ s.drop (i + 1)

/-- One single-character edit: an insertion, a deletion or a substitution
at some position of the string. -/
inductive EditStep : List Char → List Char → Prop where
  | insert (s : List Char) (i : Nat) (c : Char) :
      i ≤ s.length → EditStep s (insertAt s i c)
  | delete (s : List Char) (i : Nat) :
      i < s.length → EditStep s (removeAt s i)
  | substitute (s : List Char) (i : Nat) (c : Char) :
      i < s.length → EditStep s (s.set i c)

/-- `EditSeq a b n`: `a` is transformed into `b` by a sequence of exactly
`n` single-character edits. -/
inductive EditSeq : List Char → List Char → Nat → Prop where
  | refl (s : List Char) : EditSeq s s 0
  | step {s t u : List Char} {n : Nat} :
      EditStep s t → EditSeq t u n → EditSeq s u (n + 1)

/-- The flattened candidate set scanned by the resolvers: one
`(documentIndex, candidate)` pair per non-empty candidate, documents in
corpus order and candidates in builder order. -/
def corpusPairs : List (List (List Char)) → Nat → List (Nat × List Char)
  | [], _ => []
  | cs :: rest, i =>
    (cs.filter (fun c => !c.isEmpty)).map (fun c => (i, c)) ++ corpusPairs rest (i + 1)

/-- The resolver loops of `scanDoc`/`scanDocs`, rephrased as a single scan
over the flattened candidate set. -/
def scanPairs (userNorm : List Char) :
    List (Nat × List Char) → Option (Nat × Nat) → Option (Nat × Nat)
  | [], best => best
  | p :: rest, best =>
    scanPairs userNorm rest (scanUpdate best p.1 (cappedScore userNorm p.2))

/-- The eligible candidate set of a resource corpus. -/
def resourcePairs (docs : List ResourceDoc) : List (Nat × List Char) :=
  corpusPairs (docs.map buildResourceCandidates) 0

/-- The eligible candidate set of a datasource corpus. -/
def datasourcePairs (docs : List DatasourceDoc) : List (Nat × List Char) :=
  corpusPairs (docs.map buildDatasourceCandidates) 0

/-- A resource document with the given identifier, subcategory, page title,
description and file path, all remaining fields empty (used for concrete
corpora in witnesses and counterexamples). -/
def mkResourceDoc (ident sub pt desc fp : List Char) : ResourceDoc :=
  { id := ident, subcategory := sub, page_title := pt, description := desc,
    resource := [], resource_description := [], source := [], file_path := fp,
    headings := [], argument_names := [] }

/-- A datasource document with the given identifier, subcategory, page
title, description and file path, all remaining fields empty. -/
def mkDatasourceDoc (ident sub pt desc fp : List Char) : DatasourceDoc :=
  { id := ident, subcategory := sub, page_title := pt, description := desc,
    datasource := [], datasource_description := [], source := [], file_path := fp,
    headings := [], argument_names := [] }

theorem levF_nil_left (b : List Char) : levF [] b = b.length := by
  simp [levF]

theorem levF_cons_nil (x : Char) (xs : List Char) : levF (x :: xs) [] = xs.length + 1 := by
  simp [levF]

theorem levF_nil_right (a : List Char) : levF a [] = a.length := by
  cases a with
  | nil => simp [levF]
  | cons x xs => simp [levF_cons_nil]

theorem levF_cons_cons (x y : Char) (xs ys : List Char) :
    levF (x :: xs) (y :: ys) =
      if x = y then levF xs ys
      else min (levF xs (y :: ys) + 1) (min (levF (x :: xs) ys + 1) (levF xs ys + 1)) := by
  rw [levF]

theorem levMatrix_zero (a b : List Char) (j : Nat) : levMatrix a b 0 j = j := rfl

theorem levMatrix_succ_zero (a b : List Char) (i : Nat) : levMatrix a b (i + 1) 0 = i + 1 := rfl

theorem levMatrix_succ_succ (a b : List Char) (i j : Nat) :
    levMatrix a b (i + 1) (j + 1) =
      if a.getD i ' ' = b.getD j ' ' then levMatrix a b i j
      else
        min (levMatrix a b i (j + 1) + 1)
          (min (levMatrix a b (i + 1) j + 1) (levMatrix a b i j + 1)) := rfl

theorem take_succ_reverse (a : List Char) :
    ∀ i, i < a.length → (a.take (i + 1)).reverse = a.getD i ' ' :: (a.take i).reverse := by
  induction a with
  | nil => intro i h; simp at h
  | cons x as ih =>
    intro i h
    cases i with
    | zero => simp
    | succ i =>
      rw [List.take_succ_cons, List.take_succ_cons, List.getD_cons_succ,
        List.reverse_cons, List.reverse_cons, ih i (by simpa using h)]
      simp

theorem levMatrix_eq_levF (a b : List Char) :
    ∀ i j, i ≤ a.length → j ≤ b.length →
      levMatrix a b i j = levF ((a.take i).reverse) ((b.take j).reverse) := by
  intro i
  induction i with
  | zero =>
    intro j _ hj
    rw [levMatrix_zero, List.take_zero, List.reverse_nil, levF_nil_left]
    simp [Nat.min_eq_left hj]
  | succ i ih =>
    intro j
    induction j with
    | zero =>
      intro hi _
      have hia : i < a.length := hi
      rw [levMatrix_succ_zero, List.take_zero, List.reverse_nil,
        take_succ_reverse a i hia, levF_cons_nil]
      simp [Nat.min_eq_left (le_of_lt hia)]
    | succ j ihj =>
      intro hi hj
      have hia : i < a.length := hi
      have hjb : j < b.length := hj
      rw [levMatrix_succ_succ, ih j (le_of_lt hia) (le_of_lt hjb),
        ih (j + 1) (le_of_lt hia) hj, ihj hi (le_of_lt hjb),
        take_succ_reverse a i hia, take_succ_reverse b j hjb, levF_cons_cons]

theorem levenshtein_eq_levF (a b : List Char) :
    levenshtein a b = levF a.reverse b.reverse := by
  have h := levMatrix_eq_levF a b a.length b.length le_rfl le_rfl
  rwa [List.take_length, List.take_length] at h

theorem aligns_refl (s : List Char) : Aligns s s 0 := by
  induction s with
  | nil => exact .nil
  | cons x xs ih => exact .keep x ih

theorem aligns_nil_left (ys : List Char) : Aligns [] ys ys.length := by
  induction ys with
  | nil => exact .nil
  | cons y ys ih => exact .ins y ih

theorem aligns_nil_right (xs : List Char) : Aligns xs [] xs.length := by
  induction xs with
  | nil => exact .nil
  | cons x xs ih => exact .del x ih

theorem levF_aligns (a : List Char) : ∀ b, Aligns a b (levF a b) := by
  induction a with
  | nil =>
    intro b
    rw [levF_nil_left]
    exact aligns_nil_left b
  | cons x xs ih =>
    intro b
    induction b with
    | nil =>
      rw [levF_cons_nil]
      exact aligns_nil_right (x :: xs)
    | cons y ys ihb =>
      rw [levF_cons_cons]
      by_cases hxy : x = y
      · rw [if_pos hxy]; subst hxy; exact .keep x (ih ys)
      · rw [if_neg hxy]
        rcases le_or_lt (levF xs (y :: ys) + 1)
            (min (levF (x :: xs) ys + 1) (levF xs ys + 1)) with h | h
        · rw [min_eq_left h]
          exact .del x (ih (y :: ys))
        · rw [min_eq_right (le_of_lt h)]
          rcases le_or_lt (levF (x :: xs) ys + 1) (levF xs ys + 1) with h2 | h2
          · rw [min_eq_left h2]
            exact .ins y ihb
          · rw [min_eq_right (le_of_lt h2)]
            exact .subst x y (ih ys)

theorem aligns_symm : ∀ {a b : List Char} {n : Nat}, Aligns a b n → Aligns b a n := by
  intro a b n h
  induction h with
  | nil => exact .nil
  | keep x _ ih => exact .keep x ih
  | subst x y _ ih => exact .subst y x ih
  | del x _ ih => exact .ins x ih
  | ins y _ ih => exact .del y ih

theorem aligns_removeOne_right :
    ∀ {xs b : List Char} {n : Nat}, Aligns xs b n →
      ∀ y ys, b = y :: ys → ∃ m, m ≤ n + 1 ∧ Aligns xs ys m := by
  intro xs b n h
  induction h with
  | nil => intro y ys hb; simp at hb
  | keep x h _ =>
    intro y ys hb
    injection hb with h1 h2
    subst h2
    refine ⟨_, ?_, .del x h⟩
    omega
  | subst x y' h _ =>
    intro y ys hb
    injection hb with h1 h2
    subst h2
    refine ⟨_, ?_, .del x h⟩
    omega
  | del x _ ih =>
    intro y ys hb
    obtain ⟨m, hm, hal⟩ := ih y ys hb
    refine ⟨m + 1, ?_, .del x hal⟩
    omega
  | ins y' h _ =>
    intro y ys hb
    injection hb with h1 h2
    subst h2
    refine ⟨_, ?_, h⟩
    omega

theorem aligns_removeOne_left :
    ∀ {a ys : List Char} {n : Nat}, Aligns a ys n →
      ∀ x xs, a = x :: xs → ∃ m, m ≤ n + 1 ∧ Aligns xs ys m := by
  intro a ys n h x xs ha
  obtain ⟨m, hm, hal⟩ := aligns_removeOne_right (aligns_symm h) x xs ha
  exact ⟨m, hm, aligns_symm hal⟩

theorem levF_le_of_aligns_aux :
    ∀ (N : Nat) (a b : List Char) (n : Nat),
      a.length + b.length ≤ N → Aligns a b n → levF a b ≤ n := by
  intro N
  induction N with
  | zero =>
    intro a b n hN h
    have ha : a = [] := List.length_eq_zero.mp (by omega)
    have hb : b = [] := List.length_eq_zero.mp (by omega)
    subst ha; subst hb
    rw [levF_nil_left]
    exact Nat.zero_le n
  | succ N ihN =>
    intro a b n hN h
    cases h with
    | nil =>
      rw [levF_nil_left]
      exact Nat.le_refl 0
    | keep x h' =>
      rename_i xs ys
      rw [levF_cons_cons, if_pos rfl]
      have hlen : xs.length + ys.length ≤ N := by
        simp only [List.length_cons] at hN; omega
      exact ihN xs ys n hlen h'
    | subst x y h' =>
      rename_i xs ys m
      have hlen : xs.length + ys.length ≤ N := by
        simp only [List.length_cons] at hN; omega
      have hxy := ihN xs ys m hlen h'
      rw [levF_cons_cons]
      by_cases hc : x = y
      · rw [if_pos hc]; omega
      · rw [if_neg hc]
        have : min (levF xs (y :: ys) + 1) (min (levF (x :: xs) ys + 1) (levF xs ys + 1)) ≤
            levF xs ys + 1 :=
          le_trans (min_le_right _ _) (min_le_right _ _)
        omega
    | del x h' =>
      rename_i xs m
      cases b with
      | nil =>
        rw [levF_cons_nil]
        have hlen : xs.length + List.length ([] : List Char) ≤ N := by
          simp only [List.length_cons, List.length_nil] at hN ⊢; omega
        have := ihN xs [] m hlen h'
        rw [levF_nil_right] at this
        omega
      | cons y ys' =>
        by_cases hc : x = y
        · rw [levF_cons_cons, if_pos hc]
          obtain ⟨k, hk, hal⟩ := aligns_removeOne_right h' y ys' rfl
          have hlen : xs.length + ys'.length ≤ N := by
            simp only [List.length_cons] at hN; omega
          have := ihN xs ys' k hlen hal
          omega
        · rw [levF_cons_cons, if_neg hc]
          have hlen : xs.length + (y :: ys').length ≤ N := by
            simp only [List.length_cons] at hN ⊢; omega
          have h1 := ihN xs (y :: ys') m hlen h'
          have h2 : min (levF xs (y :: ys') + 1)
              (min (levF (x :: xs) ys' + 1) (levF xs ys' + 1)) ≤
              levF xs (y :: ys') + 1 := min_le_left _ _
          omega
    | ins y h' =>
      rename_i ys m
      cases a with
      | nil =>
        rw [levF_nil_left]
        have hlen : List.length ([] : List Char) + ys.length ≤ N := by
          simp only [List.length_cons, List.length_nil] at hN ⊢; omega
        have := ihN [] ys m hlen h'
        rw [levF_nil_left] at this
        simp only [List.length_cons]
        omega
      | cons x xs' =>
        by_cases hc : x = y
        · rw [levF_cons_cons, if_pos hc]
          obtain ⟨k, hk, hal⟩ := aligns_removeOne_left h' x xs' rfl
          have hlen : xs'.length + ys.length ≤ N := by
            simp only [List.length_cons] at hN; omega
          have := ihN xs' ys k hlen hal
          omega
        · rw [levF_cons_cons, if_neg hc]
          have hlen : (x :: xs').length + ys.length ≤ N := by
            simp only [List.length_cons] at hN ⊢; omega
          have h1 := ihN (x :: xs') ys m hlen h'
          have h2 : min (levF xs' (y :: ys) + 1)
              (min (levF (x :: xs') ys + 1) (levF xs' ys + 1)) ≤
              levF (x :: xs') ys + 1 :=
            le_trans (min_le_right _ _) (min_le_left _ _)
          omega

theorem aligns_trans_aux :
    ∀ (N : Nat) (a b c : List Char) (m n : Nat),
      a.length + b.length + c.length ≤ N → Aligns a b m → Aligns b c n →
      ∃ k, k ≤ m + n ∧ Aligns a c k := by
  intro N
  induction N with
  | zero =>
    intro a b c m n hN h1 h2
    have ha : a = [] := List.length_eq_zero.mp (by omega)
    have hc : c = [] := List.length_eq_zero.mp (by omega)
    subst ha; subst hc
    exact ⟨0, Nat.zero_le _, .nil⟩
  | succ N ihN =>
    intro a b c m n hN h1 h2
    cases h1 with
    | nil => exact ⟨n, by omega, h2⟩
    | keep x h1' =>
      rename_i xs ys
      cases h2 with
      | keep xh h2' =>
        rename_i cs
        have hlen : xs.length + ys.length + cs.length ≤ N := by
          simp only [List.length_cons] at hN; omega
        obtain ⟨k, hk, hal⟩ := ihN xs ys cs m n hlen h1' h2'
        exact ⟨k, by omega, .keep x hal⟩
      | subst xh z h2' =>
        rename_i cs nh
        have hlen : xs.length + ys.length + cs.length ≤ N := by
          simp only [List.length_cons] at hN; omega
        obtain ⟨k, hk, hal⟩ := ihN xs ys cs m nh hlen h1' h2'
        exact ⟨k + 1, by omega, .subst x z hal⟩
      | del xh h2' =>
        rename_i nh
        have hlen : xs.length + ys.length + c.length ≤ N := by
          simp only [List.length_cons] at hN; omega
        obtain ⟨k, hk, hal⟩ := ihN xs ys c m nh hlen h1' h2'
        exact ⟨k + 1, by omega, .del x hal⟩
      | ins z h2' =>
        rename_i cs nh
        have hlen : (x :: xs).length + (x :: ys).length + cs.length ≤ N := by
          simp only [List.length_cons] at hN ⊢; omega
        obtain ⟨k, hk, hal⟩ := ihN (x :: xs) (x :: ys) cs m nh hlen (.keep x h1') h2'
        exact ⟨k + 1, by omega, .ins z hal⟩
    | subst x y h1' =>
      rename_i xs ys mh
      cases h2 with
      | keep yh h2' =>
        rename_i cs
        have hlen : xs.length + ys.length + cs.length ≤ N := by
          simp only [List.length_cons] at hN; omega
        obtain ⟨k, hk, hal⟩ := ihN xs ys cs mh n hlen h1' h2'
        exact ⟨k + 1, by omega, .subst x y hal⟩
      | subst yh z h2' =>
        rename_i cs nh
        have hlen : xs.length + ys.length + cs.length ≤ N := by
          simp only [List.length_cons] at hN; omega
        obtain ⟨k, hk, hal⟩ := ihN xs ys cs mh nh hlen h1' h2'
        exact ⟨k + 1, by omega, .subst x z hal⟩
      | del yh h2' =>
        rename_i nh
        have hlen : xs.length + ys.length + c.length ≤ N := by
          simp only [List.length_cons] at hN; omega
        obtain ⟨k, hk, hal⟩ := ihN xs ys c mh nh hlen h1' h2'
        exact ⟨k + 1, by omega, .del x hal⟩
      | ins z h2' =>
        rename_i cs nh
        have hlen : (x :: xs).length + (y :: ys).length + cs.length ≤ N := by
          simp only [List.length_cons] at hN ⊢; omega
        obtain ⟨k, hk, hal⟩ :=
          ihN (x :: xs) (y :: ys) cs (mh + 1) nh hlen (.subst x y h1') h2'
        exact ⟨k + 1, by omega, .ins z hal⟩
    | del x h1' =>
      rename_i xs mh
      have hlen : xs.length + b.length + c.length ≤ N := by
        simp only [List.length_cons] at hN; omega
      obtain ⟨k, hk, hal⟩ := ihN xs b c mh n hlen h1' h2
      exact ⟨k + 1, by omega, .del x hal⟩
    | ins y h1' =>
      rename_i ys mh
      cases h2 with
      | keep yh h2' =>
        rename_i cs
        have hlen : a.length + ys.length + cs.length ≤ N := by
          simp only [List.length_cons] at hN; omega
        obtain ⟨k, hk, hal⟩ := ihN a ys cs mh n hlen h1' h2'
        exact ⟨k + 1, by omega, .ins y hal⟩
      | subst yh z h2' =>
        rename_i cs nh
        have hlen : a.length + ys.length + cs.length ≤ N := by
          simp only [List.length_cons] at hN; omega
        obtain ⟨k, hk, hal⟩ := ihN a ys cs mh nh hlen h1' h2'
        exact ⟨k + 1, by omega, .ins z hal⟩
      | del yh h2' =>
        rename_i nh
        have hlen : a.length + ys.length + c.length ≤ N := by
          simp only [List.length_cons] at hN; omega
        obtain ⟨k, hk, hal⟩ := ihN a ys c mh nh hlen h1' h2'
        exact ⟨k, by omega, hal⟩
      | ins z h2' =>
        rename_i cs nh
        have hlen : a.length + (y :: ys).length + cs.length ≤ N := by
          simp only [List.length_cons] at hN ⊢; omega
        obtain ⟨k, hk, hal⟩ := ihN a (y :: ys) cs (mh + 1) nh hlen (.ins y h1') h2'
        exact ⟨k + 1, by omega, .ins z hal⟩

theorem aligns_trans {a b c : List Char} {m n : Nat}
    (h1 : Aligns a b m) (h2 : Aligns b c n) : ∃ k, k ≤ m + n ∧ Aligns a c k :=
  aligns_trans_aux (a.length + b.length + c.length) a b c m n le_rfl h1 h2

theorem levF_le_of_aligns {a b : List Char} {n : Nat} (h : Aligns a b n) :
    levF a b ≤ n :=
  levF_le_of_aligns_aux (a.length + b.length) a b n le_rfl h

theorem aligns_snoc_keep (x : Char) :
    ∀ {u v : List Char} {n : Nat}, Aligns u v n → Aligns (u ++ [x]) (v ++ [x]) n := by
  intro u v n h
  induction h with
  | nil => exact .keep x .nil
  | keep y _ ih => exact .keep y ih
  | subst y z _ ih => exact .subst y z ih
  | del y _ ih => exact .del y ih
  | ins z _ ih => exact .ins z ih

theorem aligns_snoc_subst (x y : Char) :
    ∀ {u v : List Char} {n : Nat}, Aligns u v n → Aligns (u ++ [x]) (v ++ [y]) (n + 1) := by
  intro u v n h
  induction h with
  | nil => exact .subst x y .nil
  | keep z _ ih => exact .keep z ih
  | subst z w _ ih => exact .subst z w ih
  | del z _ ih => exact .del z ih
  | ins w _ ih => exact .ins w ih

theorem aligns_snoc_del (x : Char) :
    ∀ {u v : List Char} {n : Nat}, Aligns u v n → Aligns (u ++ [x]) v (n + 1) := by
  intro u v n h
  induction h with
  | nil => exact .del x .nil
  | keep z _ ih => exact .keep z ih
  | subst z w _ ih => exact .subst z w ih
  | del z _ ih => exact .del z ih
  | ins w _ ih => exact .ins w ih

theorem aligns_snoc_ins (y : Char) :
    ∀ {u v : List Char} {n : Nat}, Aligns u v n → Aligns u (v ++ [y]) (n + 1) := by
  intro u v n h
  induction h with
  | nil => exact .ins y .nil
  | keep z _ ih => exact .keep z ih
  | subst z w _ ih => exact .subst z w ih
  | del z _ ih => exact .del z ih
  | ins w _ ih => exact .ins w ih

theorem aligns_reverse :
    ∀ {a b : List Char} {n : Nat}, Aligns a b n → Aligns a.reverse b.reverse n := by
  intro a b n h
  induction h with
  | nil => exact .nil
  | keep x _ ih =>
    rw [List.reverse_cons, List.reverse_cons]
    exact aligns_snoc_keep x ih
  | subst x y _ ih =>
    rw [List.reverse_cons, List.reverse_cons]
    exact aligns_snoc_subst x y ih
  | del x _ ih =>
    rw [List.reverse_cons]
    exact aligns_snoc_del x ih
  | ins y _ ih =>
    rw [List.reverse_cons]
    exact aligns_snoc_ins y ih

theorem editStep_cons (x : Char) {s t : List Char} (h : EditStep s t) :
    EditStep (x :: s) (x :: t) := by
  cases h with
  | insert i c hi =>
    have he : x :: insertAt s i c = insertAt (x :: s) (i + 1) c := by
      simp [insertAt]
    rw [he]
    exact .insert (x :: s) (i + 1) c (by simpa using hi)
  | delete i hi =>
    have he : x :: removeAt s i = removeAt (x :: s) (i + 1) := by
      simp [removeAt]
    rw [he]
    exact .delete (x :: s) (i + 1) (by simpa using hi)
  | substitute i c hi =>
    have he : x :: s.set i c = (x :: s).set (i + 1) c := rfl
    rw [he]
    exact .substitute (x :: s) (i + 1) c (by simpa using hi)

theorem editSeq_cons (x : Char) {s t : List Char} {n : Nat} (h : EditSeq s t n) :
    EditSeq (x :: s) (x :: t) n := by
  induction h with
  | refl s => exact .refl (x :: s)
  | step hstep _ ih => exact .step (editStep_cons x hstep) ih

theorem aligns_editSeq :
    ∀ {a b : List Char} {n : Nat}, Aligns a b n → EditSeq a b n := by
  intro a b n h
  induction h with
  | nil => exact .refl []
  | keep x _ ih => exact editSeq_cons x ih
  | subst x y hd ih =>
    rename_i xs ys m
    exact .step (EditStep.substitute (x :: xs) 0 y (by simp)) (editSeq_cons y ih)
  | del x hd ih =>
    rename_i xs ys m
    exact .step (EditStep.delete (x :: xs) 0 (by simp)) ih
  | ins y hd ih =>
    rename_i xs ys m
    exact .step (EditStep.insert xs 0 y (Nat.zero_le _)) (editSeq_cons y ih)

theorem aligns_insertAt (c : Char) :
    ∀ (s : List Char) (i : Nat), i ≤ s.length → Aligns s (insertAt s i c) 1 := by
  intro s
  induction s with
  | nil =>
    intro i hi
    have h0 : i = 0 := by simpa using hi
    subst h0
    exact .ins c .nil
  | cons x s' ih =>
    intro i hi
    cases i with
    | zero => exact .ins c (aligns_refl (x :: s'))
    | succ i =>
      have he : insertAt (x :: s') (i + 1) c = x :: insertAt s' i c := by
        simp [insertAt]
      rw [he]
      exact .keep x (ih i (by simpa using hi))

theorem aligns_removeAt :
    ∀ (s : List Char) (i : Nat), i < s.length → Aligns s (removeAt s i) 1 := by
  intro s
  induction s with
  | nil => intro i hi; simp at hi
  | cons x s' ih =>
    intro i hi
    cases i with
    | zero => exact .del x (aligns_refl s')
    | succ i =>
      have he : removeAt (x :: s') (i + 1) = x :: removeAt s' i := by
        simp [removeAt]
      rw [he]
      exact .keep x (ih i (by simpa using hi))

theorem aligns_set (c : Char) :
    ∀ (s : List Char) (i : Nat), i < s.length → Aligns s (s.set i c) 1 := by
  intro s
  induction s with
  | nil => intro i hi; simp at hi
  | cons x s' ih =>
    intro i hi
    cases i with
    | zero => exact .subst x c (aligns_refl s')
    | succ i => exact .keep x (ih i (by simpa using hi))

theorem editStep_aligns {s t : List Char} (h : EditStep s t) : Aligns s t 1 := by
  cases h with
  | insert i c hi => exact aligns_insertAt c s i hi
  | delete i hi => exact aligns_removeAt s i hi
  | substitute i c hi => exact aligns_set c s i hi

theorem editSeq_aligns :
    ∀ {a b : List Char} {n : Nat}, EditSeq a b n → ∃ m, m ≤ n ∧ Aligns a b m := by
  intro a b n h
  induction h with
  | refl s => exact ⟨0, le_rfl, aligns_refl s⟩
  | step hstep _ ih =>
    obtain ⟨m, hm, hal⟩ := ih
    obtain ⟨k, hk, h⟩ := aligns_trans (editStep_aligns hstep) hal
    exact ⟨k, by omega, h⟩

theorem levenshtein_editSeq (a b : List Char) : EditSeq a b (levenshtein a b) := by
  rw [levenshtein_eq_levF]
  have h := aligns_reverse (levF_aligns a.reverse b.reverse)
  rw [List.reverse_reverse, List.reverse_reverse] at h
  exact aligns_editSeq h

theorem levenshtein_le_of_editSeq {a b : List Char} {n : Nat} (h : EditSeq a b n) :
    levenshtein a b ≤ n := by
  obtain ⟨m, hm, hal⟩ := editSeq_aligns h
  have := levF_le_of_aligns (aligns_reverse hal)
  rw [levenshtein_eq_levF]
  omega

theorem levenshtein_self (a : List Char) : levenshtein a a = 0 :=
  Nat.le_zero.mp (levenshtein_le_of_editSeq (.refl a))

theorem levenshtein_comm (a b : List Char) : levenshtein a b = levenshtein b a := by
  rw [levenshtein_eq_levF, levenshtein_eq_levF]
  exact le_antisymm
    (levF_le_of_aligns (aligns_symm (levF_aligns b.reverse a.reverse)))
    (levF_le_of_aligns (aligns_symm (levF_aligns a.reverse b.reverse)))

theorem levenshtein_triangle (a b c : List Char) :
    levenshtein a c ≤ levenshtein a b + levenshtein b c := by
  rw [levenshtein_eq_levF, levenshtein_eq_levF, levenshtein_eq_levF]
  obtain ⟨k, hk, h⟩ :=
    aligns_trans (levF_aligns a.reverse b.reverse) (levF_aligns b.reverse c.reverse)
  exact le_trans (levF_le_of_aligns h) hk

theorem levenshtein_nil_left (b : List Char) : levenshtein [] b = b.length := rfl

/-! ### Characterisation of the best-match scan -/

theorem getD_eq_get (l : List (List Char)) (i : Nat) (h : i < l.length) :
    l.getD i [] = l.get ⟨i, h⟩ := by
  induction l generalizing i with
  | nil => simp at h
  | cons x xs ih =>
    cases i with
    | zero => rfl
    | succ i => exact ih i (by simpa using h)

theorem findGo_cons_none (t c : List Char) (cs : List (List Char)) (i : Nat) :
    findBestFuzzyMatchGo t (c :: cs) i none =
      findBestFuzzyMatchGo t cs (i + 1) (some (i, levenshtein t c)) := rfl

theorem findGo_cons_some (t c : List Char) (cs : List (List Char)) (i b0 m0 : Nat) :
    findBestFuzzyMatchGo t (c :: cs) i (some (b0, m0)) =
      findBestFuzzyMatchGo t cs (i + 1)
        (if levenshtein t c < m0 then some (i, levenshtein t c) else some (b0, m0)) := rfl

theorem findGo_none_iff (t : List Char) :
    ∀ (cs : List (List Char)) (i : Nat) (acc : Option (Nat × Nat)),
      findBestFuzzyMatchGo t cs i acc = none ↔ acc = none ∧ cs = [] := by
  intro cs
  induction cs with
  | nil => intro i acc; simp [findBestFuzzyMatchGo]
  | cons c cs ih =>
    intro i acc
    rcases acc with _ | ⟨b0, m0⟩
    · rw [findGo_cons_none, ih]
      simp
    · rw [findGo_cons_some, ih]
      by_cases hlt : levenshtein t c < m0 <;> simp [hlt]

theorem findGo_some_spec (t : List Char) :
    ∀ (cs : List (List Char)) (i : Nat) (acc : Option (Nat × Nat)) (bi d : Nat),
      findBestFuzzyMatchGo t cs i acc = some (bi, d) →
      ((acc = some (bi, d) ∧
          ∀ k, (hk : k < cs.length) → ¬ levenshtein t (cs.get ⟨k, hk⟩) < d) ∨
        ∃ k, ∃ hk : k < cs.length,
          bi = i + k ∧ d = levenshtein t (cs.get ⟨k, hk⟩) ∧
          (∀ a da, acc = some (a, da) → d < da) ∧
          (∀ k2, (hk2 : k2 < cs.length) → ¬ levenshtein t (cs.get ⟨k2, hk2⟩) < d) ∧
          (∀ k2, (hk2 : k2 < cs.length) → k2 < k → d < levenshtein t (cs.get ⟨k2, hk2⟩))) := by
  intro cs
  induction cs with
  | nil =>
    intro i acc bi d h
    left
    refine ⟨h, ?_⟩
    intro k hk
    simp at hk
  | cons c cs ih =>
    intro i acc bi d h
    rcases acc with _ | ⟨b0, m0⟩
    · rw [findGo_cons_none] at h
      rcases ih (i + 1) (some (i, levenshtein t c)) bi d h with
        ⟨hacc, hmin⟩ | ⟨k, hk, hbk, hd, haccc, hmin, hfirst⟩
      · simp only [Option.some.injEq, Prod.mk.injEq] at hacc
        obtain ⟨hbi, hdd⟩ := hacc
        right
        refine ⟨0, by simp, by omega, by simp [hdd.symm], ?_, ?_, ?_⟩
        · intro a da hcontr; simp at hcontr
        · intro k2 hk2
          cases k2 with
          | zero => simp; omega
          | succ k2 =>
            have := hmin k2 (by simpa using hk2)
            simpa using this
        · intro k2 hk2 hlt0; omega
      · right
        refine ⟨k + 1, by simpa using hk, by omega, by simpa using hd, ?_, ?_, ?_⟩
        · intro a da hcontr; simp at hcontr
        · intro k2 hk2
          cases k2 with
          | zero =>
            have := haccc i (levenshtein t c) rfl
            simp; omega
          | succ k2 =>
            have := hmin k2 (by simpa using hk2)
            simpa using this
        · intro k2 hk2 hlt0
          cases k2 with
          | zero =>
            have := haccc i (levenshtein t c) rfl
            simpa using this
          | succ k2 =>
            have := hfirst k2 (by simpa using hk2) (by omega)
            simpa using this
    · by_cases hlt : levenshtein t c < m0
      · rw [findGo_cons_some, if_pos hlt] at h
        rcases ih (i + 1) (some (i, levenshtein t c)) bi d h with
          ⟨hacc, hmin⟩ | ⟨k, hk, hbk, hd, haccc, hmin, hfirst⟩
        · simp only [Option.some.injEq, Prod.mk.injEq] at hacc
          obtain ⟨hbi, hdd⟩ := hacc
          right
          refine ⟨0, by simp, by omega, by simp [hdd.symm], ?_, ?_, ?_⟩
          · intro a da hada
            simp only [Option.some.injEq, Prod.mk.injEq] at hada
            omega
          · intro k2 hk2
            cases k2 with
            | zero => simp; omega
            | succ k2 =>
              have := hmin k2 (by simpa using hk2)
              simpa using this
          · intro k2 hk2 hlt0; omega
        · right
          refine ⟨k + 1, by simpa using hk, by omega, by simpa using hd, ?_, ?_, ?_⟩
          · intro a da hada
            simp only [Option.some.injEq, Prod.mk.injEq] at hada
            have := haccc i (levenshtein t c) rfl
            omega
          · intro k2 hk2
            cases k2 with
            | zero =>
              have := haccc i (levenshtein t c) rfl
              simp; omega
            | succ k2 =>
              have := hmin k2 (by simpa using hk2)
              simpa using this
          · intro k2 hk2 hlt0
            cases k2 with
            | zero =>
              have := haccc i (levenshtein t c) rfl
              simpa using this
            | succ k2 =>
              have := hfirst k2 (by simpa using hk2) (by omega)
              simpa using this
      · rw [findGo_cons_some, if_neg hlt] at h
        rcases ih (i + 1) (some (b0, m0)) bi d h with
          ⟨hacc, hmin⟩ | ⟨k, hk, hbk, hd, haccc, hmin, hfirst⟩
        · left
          simp only [Option.some.injEq, Prod.mk.injEq] at hacc
          obtain ⟨hbi, hdd⟩ := hacc
          refine ⟨by simp [hbi, hdd], ?_⟩
          intro k2 hk2
          cases k2 with
          | zero => simp; omega
          | succ k2 =>
            have := hmin k2 (by simpa using hk2)
            simpa using this
        · right
          have hdm0 : d < m0 := haccc b0 m0 rfl
          refine ⟨k + 1, by simpa using hk, by omega, by simpa using hd, ?_, ?_, ?_⟩
          · intro a da hada
            simp only [Option.some.injEq, Prod.mk.injEq] at hada
            omega
          · intro k2 hk2
            cases k2 with
            | zero => simp; omega
            | succ k2 =>
              have := hmin k2 (by simpa using hk2)
              simpa using this
          · intro k2 hk2 hlt0
            cases k2 with
            | zero => simp; omega
            | succ k2 =>
              have := hfirst k2 (by simpa using hk2) (by omega)
              simpa using this

/-- Claim C1: for every target, candidate sequence and threshold,
`findBestFuzzyMatch` returns the candidate of minimum Levenshtein distance
to the target, together with its index and that distance, choosing the
lowest-index candidate on ties (every earlier candidate is strictly
farther); and it returns `none` exactly when the candidate sequence is
empty or the minimum distance exceeds the threshold (all candidates are
farther than the threshold), a minimum equal to the threshold being
accepted. -/
theorem findBestFuzzyMatch_correct (target : List Char) (cs : List (List Char)) (th : Nat) :
    (∀ m bi d, findBestFuzzyMatch target cs th = some (m, bi, d) →
      ∃ h : bi < cs.length,
        m = cs.get ⟨bi, h⟩ ∧ d = levenshtein target (cs.get ⟨bi, h⟩) ∧ d ≤ th ∧
        (∀ j, (hj : j < cs.length) → d ≤ levenshtein target (cs.get ⟨j, hj⟩)) ∧
        (∀ j, (hj : j < cs.length) → j < bi → d < levenshtein target (cs.get ⟨j, hj⟩))) ∧
    (findBestFuzzyMatch target cs th = none ↔
      (cs = [] ∨ ∀ j, (hj : j < cs.length) → th < levenshtein target (cs.get ⟨j, hj⟩))) := by
  unfold findBestFuzzyMatch
  cases hgo : findBestFuzzyMatchGo target cs 0 none with
  | none =>
    obtain ⟨-, hcs⟩ := (findGo_none_iff target cs 0 none).mp hgo
    subst hcs
    constructor
    · intro m bi d heq
      simp at heq
    · simp
  | some p =>
    obtain ⟨bi0, md⟩ := p
    dsimp only
    rcases findGo_some_spec target cs 0 none bi0 md hgo with
      ⟨hacc, -⟩ | ⟨k, hk, hbk, hd, -, hmin, hfirst⟩
    · simp at hacc
    have hbik : bi0 = k := by omega
    subst hbik
    by_cases hth : md ≤ th
    · rw [if_pos hth]
      constructor
      · intro m bi d heq
        simp only [Option.some.injEq, Prod.mk.injEq] at heq
        obtain ⟨hm, hbi, hdd⟩ := heq
        subst hbi; subst hdd
        refine ⟨hk, ?_, hd, hth, ?_, ?_⟩
        · rw [← hm, getD_eq_get cs bi0 hk]
        · intro j hj
          have := hmin j hj
          omega
        · intro j hj hlt
          exact hfirst j hj hlt
      · constructor
        · intro heq; simp at heq
        · intro hdisj
          rcases hdisj with hnil | hall
          · subst hnil; simp at hk
          · have := hall bi0 hk
            omega
    · rw [if_neg hth]
      constructor
      · intro m bi d heq; simp at heq
      · constructor
        · intro _
          right
          intro j hj
          have := hmin j hj
          omega
        · intro _; rfl

/-- Witness for C1 at a concrete input: the tie between the two identical
candidates is broken in favour of index 0, and the theorem yields the
minimality of the returned distance. -/
theorem findBestFuzzyMatch_correct_witness :
    findBestFuzzyMatch "ab".toList ["ab".toList, "ab".toList] 3 =
        some ("ab".toList, 0, 0) ∧
      (0 : Nat) ≤ levenshtein "ab".toList "ab".toList := by
  constructor
  · decide
  · obtain ⟨h, hm, hd, hth, hmin, hfirst⟩ :=
      (findBestFuzzyMatch_correct "ab".toList ["ab".toList, "ab".toList] 3).1
        "ab".toList 0 0 (by decide)
    exact hmin 0 h

/-! ### Characterisation of the resolver scan -/

theorem cappedScore_eq (t c : List Char) :
    cappedScore t c =
      if levenshtein t c ≤ 3 then some (levenshtein t c) else none := by
  unfold cappedScore findBestFuzzyMatch
  have hgo : findBestFuzzyMatchGo t [c] 0 none = some (0, levenshtein t c) := rfl
  rw [hgo]
  by_cases h : levenshtein t c ≤ 3 <;> simp [h]

theorem scanUpdate_none_iff (b : Option (Nat × Nat)) (i : Nat) (s : Option Nat) :
    scanUpdate b i s = none ↔ b = none ∧ s = none := by
  rcases s with _ | s <;> rcases b with _ | ⟨bi, bs⟩ <;>
    simp [scanUpdate]
  split <;> simp

theorem scanPairs_append (t : List Char) (L1 L2 : List (Nat × List Char)) :
    ∀ acc, scanPairs t (L1 ++ L2) acc = scanPairs t L2 (scanPairs t L1 acc) := by
  induction L1 with
  | nil => intro acc; rfl
  | cons p L1 ih => intro acc; exact ih _

theorem scanDoc_eq_scanPairs (t : List Char) :
    ∀ (cs : List (List Char)) (i : Nat) (acc : Option (Nat × Nat)),
      scanDoc t cs i acc =
        scanPairs t ((cs.filter (fun c => !c.isEmpty)).map (fun c => (i, c))) acc := by
  intro cs
  induction cs with
  | nil => intro i acc; rfl
  | cons c cs ih =>
    intro i acc
    by_cases hc : c = []
    · subst hc
      show scanDoc t ([] :: cs) i acc = _
      rw [show scanDoc t ([] :: cs) i acc = scanDoc t cs i acc from rfl, ih]
      rfl
    · have hne : c.isEmpty = false := by
        cases c with
        | nil => exact absurd rfl hc
        | cons _ _ => rfl
      rw [show scanDoc t (c :: cs) i acc =
          scanDoc t cs i (scanUpdate acc i (cappedScore t c)) from by
        simp [scanDoc, hc], ih]
      simp [hne, scanPairs]

theorem scanDocs_eq_scanPairs (t : List Char) :
    ∀ (cands : List (List (List Char))) (i : Nat) (acc : Option (Nat × Nat)),
      scanDocs t cands i acc = scanPairs t (corpusPairs cands i) acc := by
  intro cands
  induction cands with
  | nil => intro i acc; rfl
  | cons cs rest ih =>
    intro i acc
    show scanDocs t rest (i + 1) (scanDoc t cs i acc) = _
    rw [ih, corpusPairs, scanPairs_append, scanDoc_eq_scanPairs]

theorem scanPairs_none_iff (t : List Char) :
    ∀ (L : List (Nat × List Char)) (acc : Option (Nat × Nat)),
      scanPairs t L acc = none ↔
        acc = none ∧ ∀ p ∈ L, cappedScore t p.2 = none := by
  intro L
  induction L with
  | nil => intro acc; simp [scanPairs]
  | cons p L ih =>
    intro acc
    rw [scanPairs, ih, scanUpdate_none_iff]
    constructor
    · rintro ⟨⟨hacc, hsc⟩, hall⟩
      exact ⟨hacc, by simpa [hsc] using hall⟩
    · rintro ⟨hacc, hall⟩
      have hp := hall p (by simp)
      exact ⟨⟨hacc, hp⟩, fun q hq => hall q (by simp [hq])⟩

theorem scanPairs_some_spec (t : List Char) :
    ∀ (L : List (Nat × List Char)) (acc : Option (Nat × Nat)) (bi bs : Nat),
      scanPairs t L acc = some (bi, bs) →
      ((acc = some (bi, bs) ∧
          ∀ p ∈ L, ∀ s, cappedScore t p.2 = some s → ¬ s < bs) ∨
        ∃ L1 c L2, L = L1 ++ (bi, c) :: L2 ∧ cappedScore t c = some bs ∧
          (∀ a sa, acc = some (a, sa) → bs < sa) ∧
          (∀ p ∈ L1, ∀ s, cappedScore t p.2 = some s → bs < s) ∧
          (∀ p ∈ L, ∀ s, cappedScore t p.2 = some s → ¬ s < bs)) := by
  intro L
  induction L with
  | nil =>
    intro acc bi bs h
    left
    exact ⟨h, by simp⟩
  | cons p L ih =>
    intro acc bi bs h
    obtain ⟨i, c⟩ := p
    rw [scanPairs] at h
    rcases hsc : cappedScore t c with _ | s0
    · -- empty score: the update leaves the accumulator unchanged
      rw [show scanUpdate acc i (cappedScore t c) = acc from by
        rw [hsc]; rcases acc with _ | ⟨a, sa⟩ <;> rfl] at h
      rcases ih acc bi bs h with ⟨hacc, hmin⟩ | ⟨L1, c', L2, hsp, hcs, haccc, hpre, hglob⟩
      · left
        refine ⟨hacc, ?_⟩
        intro q hq s hs
        rcases List.mem_cons.mp hq with hq | hq
        · subst hq; rw [hsc] at hs; simp at hs
        · exact hmin q hq s hs
      · right
        refine ⟨(i, c) :: L1, c', L2, by simp [hsp], hcs, haccc, ?_, ?_⟩
        · intro q hq s hs
          rcases List.mem_cons.mp hq with hq | hq
          · subst hq; rw [hsc] at hs; simp at hs
          · exact hpre q hq s hs
        · intro q hq s hs
          rcases List.mem_cons.mp hq with hq | hq
          · subst hq; rw [hsc] at hs; simp at hs
          · exact hglob q hq s hs
    · rcases acc with _ | ⟨a0, sa0⟩
      · rw [show scanUpdate none i (cappedScore t c) = some (i, s0) from by
          rw [hsc]; rfl] at h
        rcases ih (some (i, s0)) bi bs h with
          ⟨hacc, hmin⟩ | ⟨L1, c', L2, hsp, hcs, haccc, hpre, hglob⟩
        · simp only [Option.some.injEq, Prod.mk.injEq] at hacc
          obtain ⟨hbi, hbs⟩ := hacc
          right
          refine ⟨[], c, L, by simp [hbi.symm], by rw [hsc, hbs], ?_, by simp, ?_⟩
          · intro a sa hcontr; simp at hcontr
          · intro q hq s hs
            rcases List.mem_cons.mp hq with hq | hq
            · subst hq; rw [hsc] at hs
              simp only [Option.some.injEq] at hs
              omega
            · exact hmin q hq s hs
        · right
          have hlt := haccc i s0 rfl
          refine ⟨(i, c) :: L1, c', L2, by simp [hsp], hcs, ?_, ?_, ?_⟩
          · intro a sa hcontr; simp at hcontr
          · intro q hq s hs
            rcases List.mem_cons.mp hq with hq | hq
            · subst hq; rw [hsc] at hs
              simp only [Option.some.injEq] at hs
              omega
            · exact hpre q hq s hs
          · intro q hq s hs
            rcases List.mem_cons.mp hq with hq | hq
            · subst hq; rw [hsc] at hs
              simp only [Option.some.injEq] at hs
              omega
            · exact hglob q hq s hs
      · by_cases hlt : s0 < sa0
        · rw [show scanUpdate (some (a0, sa0)) i (cappedScore t c) = some (i, s0) from by
            rw [hsc]; simp [scanUpdate, hlt]] at h
          rcases ih (some (i, s0)) bi bs h with
            ⟨hacc, hmin⟩ | ⟨L1, c', L2, hsp, hcs, haccc, hpre, hglob⟩
          · simp only [Option.some.injEq, Prod.mk.injEq] at hacc
            obtain ⟨hbi, hbs⟩ := hacc
            right
            refine ⟨[], c, L, by simp [hbi.symm], by rw [hsc, hbs], ?_, by simp, ?_⟩
            · intro a sa hsa
              simp only [Option.some.injEq, Prod.mk.injEq] at hsa
              omega
            · intro q hq s hs
              rcases List.mem_cons.mp hq with hq | hq
              · subst hq; rw [hsc] at hs
                simp only [Option.some.injEq] at hs
                omega
              · exact hmin q hq s hs
          · right
            have hlt2 := haccc i s0 rfl
            refine ⟨(i, c) :: L1, c', L2, by simp [hsp], hcs, ?_, ?_, ?_⟩
            · intro a sa hsa
              simp only [Option.some.injEq, Prod.mk.injEq] at hsa
              omega
            · intro q hq s hs
              rcases List.mem_cons.mp hq with hq | hq
              · subst hq; rw [hsc] at hs
                simp only [Option.some.injEq] at hs
                omega
              · exact hpre q hq s hs
            · intro q hq s hs
              rcases List.mem_cons.mp hq with hq | hq
              · subst hq; rw [hsc] at hs
                simp only [Option.some.injEq] at hs
                omega
              · exact hglob q hq s hs
        · rw [show scanUpdate (some (a0, sa0)) i (cappedScore t c) = some (a0, sa0) from by
            rw [hsc]; simp [scanUpdate, hlt]] at h
          rcases ih (some (a0, sa0)) bi bs h with
            ⟨hacc, hmin⟩ | ⟨L1, c', L2, hsp, hcs, haccc, hpre, hglob⟩
          · left
            simp only [Option.some.injEq, Prod.mk.injEq] at hacc
            obtain ⟨hbi, hbs⟩ := hacc
            refine ⟨by simp [hbi, hbs], ?_⟩
            intro q hq s hs
            rcases List.mem_cons.mp hq with hq | hq
            · subst hq; rw [hsc] at hs
              simp only [Option.some.injEq] at hs
              omega
            · exact hmin q hq s hs
          · right
            have hbs0 := haccc a0 sa0 rfl
            refine ⟨(i, c) :: L1, c', L2, by simp [hsp], hcs, ?_, ?_, ?_⟩
            · intro a sa hsa
              simp only [Option.some.injEq, Prod.mk.injEq] at hsa
              omega
            · intro q hq s hs
              rcases List.mem_cons.mp hq with hq | hq
              · subst hq; rw [hsc] at hs
                simp only [Option.some.injEq] at hs
                omega
              · exact hpre q hq s hs
            · intro q hq s hs
              rcases List.mem_cons.mp hq with hq | hq
              · subst hq; rw [hsc] at hs
                simp only [Option.some.injEq] at hs
                omega
              · exact hglob q hq s hs

theorem mem_corpusPairs_bounds :
    ∀ (cands : List (List (List Char))) (i : Nat) (p : Nat × List Char),
      p ∈ corpusPairs cands i → i ≤ p.1 ∧ p.1 < i + cands.length := by
  intro cands
  induction cands with
  | nil => intro i p hp; simp [corpusPairs] at hp
  | cons cs rest ih =>
    intro i p hp
    rw [corpusPairs, List.mem_append] at hp
    rcases hp with hp | hp
    · obtain ⟨c, -, hc⟩ := List.mem_map.mp hp
      subst hc
      dsimp only
      simp only [List.length_cons]
      omega
    · have := ih (i + 1) p hp
      simp only [List.length_cons]
      omega

theorem resolveResource_eq (q : List Char) (docs : List ResourceDoc) (hq : q ≠ []) :
    resolveResourceDocFileNameFromAWSResourceName q docs =
      match scanPairs (normaliseAWSResourceNameOrSubcategory q) (resourcePairs docs) none with
      | none => .notFound
      | some (bi, _) =>
        match docs[bi]? with
        | none => .errMissingFilePath
        | some r =>
          if r.file_path = [] then .errMissingFilePath else .found r.file_path := by
  unfold resolveResourceDocFileNameFromAWSResourceName
  rw [if_neg hq]
  simp only [scanDocs_eq_scanPairs]
  rfl

theorem resolveResource_spec (q : List Char) (docs : List ResourceDoc) (hq : q ≠ []) :
    (resolveResourceDocFileNameFromAWSResourceName q docs = .notFound ↔
      ∀ p ∈ resourcePairs docs,
        3 < levenshtein (normaliseAWSResourceNameOrSubcategory q) p.2) ∧
    ((∃ p ∈ resourcePairs docs,
        levenshtein (normaliseAWSResourceNameOrSubcategory q) p.2 ≤ 3) →
      (∀ d ∈ docs, d.file_path ≠ []) →
      ∃ bi, ∃ h : bi < docs.length, ∃ L1 c L2,
        resourcePairs docs = L1 ++ (bi, c) :: L2 ∧
        levenshtein (normaliseAWSResourceNameOrSubcategory q) c ≤ 3 ∧
        (∀ p ∈ resourcePairs docs,
          levenshtein (normaliseAWSResourceNameOrSubcategory q) c ≤
            levenshtein (normaliseAWSResourceNameOrSubcategory q) p.2) ∧
        (∀ p ∈ L1,
          levenshtein (normaliseAWSResourceNameOrSubcategory q) c <
            levenshtein (normaliseAWSResourceNameOrSubcategory q) p.2) ∧
        resolveResourceDocFileNameFromAWSResourceName q docs =
          .found ((docs.get ⟨bi, h⟩).file_path)) := by
  have heq := resolveResource_eq q docs hq
  cases hscan : scanPairs (normaliseAWSResourceNameOrSubcategory q)
      (resourcePairs docs) none with
  | none =>
    rw [hscan] at heq
    dsimp only at heq
    obtain ⟨-, hall⟩ :=
      (scanPairs_none_iff (normaliseAWSResourceNameOrSubcategory q)
        (resourcePairs docs) none).mp hscan
    constructor
    · rw [heq]
      simp only [true_iff]
      intro p hp
      have := hall p hp
      rw [cappedScore_eq] at this
      by_cases h3 : levenshtein (normaliseAWSResourceNameOrSubcategory q) p.2 ≤ 3
      · rw [if_pos h3] at this; simp at this
      · omega
    · rintro ⟨p, hp, hd⟩
      have := hall p hp
      rw [cappedScore_eq, if_pos hd] at this
      simp at this
  | some pr =>
    obtain ⟨bi, bs⟩ := pr
    rw [hscan] at heq
    dsimp only at heq
    rcases scanPairs_some_spec (normaliseAWSResourceNameOrSubcategory q)
        (resourcePairs docs) none bi bs hscan with
      ⟨hacc, -⟩ | ⟨L1, c, L2, hsp, hcs, -, hpre, hglob⟩
    · simp at hacc
    rw [cappedScore_eq] at hcs
    by_cases hd3 : levenshtein (normaliseAWSResourceNameOrSubcategory q) c ≤ 3
    case neg => rw [if_neg hd3] at hcs; simp at hcs
    rw [if_pos hd3] at hcs
    have hbs : bs = levenshtein (normaliseAWSResourceNameOrSubcategory q) c := by
      simpa using hcs.symm
    have hmem : (bi, c) ∈ resourcePairs docs := by
      rw [hsp]
      exact List.mem_append.mpr (Or.inr (by simp))
    have hbound := mem_corpusPairs_bounds (docs.map buildResourceCandidates) 0 (bi, c) hmem
    have hlt : bi < docs.length := by
      simpa using hbound.2
    have hminall : ∀ p ∈ resourcePairs docs,
        levenshtein (normaliseAWSResourceNameOrSubcategory q) c ≤
          levenshtein (normaliseAWSResourceNameOrSubcategory q) p.2 := by
      intro p hp
      by_cases h3 : levenshtein (normaliseAWSResourceNameOrSubcategory q) p.2 ≤ 3
      · have := hglob p hp (levenshtein (normaliseAWSResourceNameOrSubcategory q) p.2)
          (by rw [cappedScore_eq, if_pos h3])
        omega
      · omega
    have hpreall : ∀ p ∈ L1,
        levenshtein (normaliseAWSResourceNameOrSubcategory q) c <
          levenshtein (normaliseAWSResourceNameOrSubcategory q) p.2 := by
      intro p hp
      by_cases h3 : levenshtein (normaliseAWSResourceNameOrSubcategory q) p.2 ≤ 3
      · have := hpre p hp (levenshtein (normaliseAWSResourceNameOrSubcategory q) p.2)
          (by rw [cappedScore_eq, if_pos h3])
        omega
      · omega
    constructor
    · constructor
      · intro hnf
        rw [hnf] at heq
        rw [List.getElem?_eq_getElem hlt] at heq
        dsimp only at heq
        by_cases hfp : docs[bi].file_path = []
        · rw [if_pos hfp] at heq; simp at heq
        · rw [if_neg hfp] at heq; simp at heq
      · intro hall
        have h2 : 3 < levenshtein (normaliseAWSResourceNameOrSubcategory q) c :=
          hall (bi, c) hmem
        omega
    · intro hex hfp
      clear hex
      refine ⟨bi, hlt, L1, c, L2, hsp, hd3, hminall, hpreall, ?_⟩
      rw [heq, List.getElem?_eq_getElem hlt]
      dsimp only
      have hfpne : docs[bi].file_path ≠ [] := hfp docs[bi] (docs.getElem_mem hlt)
      rw [if_neg hfpne]
      rw [List.get_eq_getElem]

theorem resolveDatasource_eq (q : List Char) (docs : List DatasourceDoc) (hq : q ≠ []) :
    resolveDatasourceDocFileNameFromAWSDatasourceName q docs =
      match scanPairs (normaliseAWSResourceNameOrSubcategory q) (datasourcePairs docs) none with
      | none => .notFound
      | some (bi, _) =>
        match docs[bi]? with
        | none => .errMissingFilePath
        | some d =>
          if d.file_path = [] then .errMissingFilePath
          else .found (if lastSegment d.file_path = [] then d.file_path
            else lastSegment d.file_path) := by
  unfold resolveDatasourceDocFileNameFromAWSDatasourceName
  rw [if_neg hq]
  simp only [scanDocs_eq_scanPairs]
  rfl

theorem resolveDatasource_spec (q : List Char) (docs : List DatasourceDoc) (hq : q ≠ []) :
    (resolveDatasourceDocFileNameFromAWSDatasourceName q docs = .notFound ↔
      ∀ p ∈ datasourcePairs docs,
        3 < levenshtein (normaliseAWSResourceNameOrSubcategory q) p.2) ∧
    ((∃ p ∈ datasourcePairs docs,
        levenshtein (normaliseAWSResourceNameOrSubcategory q) p.2 ≤ 3) →
      (∀ d ∈ docs, d.file_path ≠ []) →
      ∃ bi, ∃ h : bi < docs.length, ∃ L1 c L2,
        datasourcePairs docs = L1 ++ (bi, c) :: L2 ∧
        levenshtein (normaliseAWSResourceNameOrSubcategory q) c ≤ 3 ∧
        (∀ p ∈ datasourcePairs docs,
          levenshtein (normaliseAWSResourceNameOrSubcategory q) c ≤
            levenshtein (normaliseAWSResourceNameOrSubcategory q) p.2) ∧
        (∀ p ∈ L1,
          levenshtein (normaliseAWSResourceNameOrSubcategory q) c <
            levenshtein (normaliseAWSResourceNameOrSubcategory q) p.2) ∧
        resolveDatasourceDocFileNameFromAWSDatasourceName q docs =
          .found (if lastSegment ((docs.get ⟨bi, h⟩).file_path) = []
            then (docs.get ⟨bi, h⟩).file_path
            else lastSegment ((docs.get ⟨bi, h⟩).file_path))) := by
  have heq := resolveDatasource_eq q docs hq
  cases hscan : scanPairs (normaliseAWSResourceNameOrSubcategory q)
      (datasourcePairs docs) none with
  | none =>
    rw [hscan] at heq
    dsimp only at heq
    obtain ⟨-, hall⟩ :=
      (scanPairs_none_iff (normaliseAWSResourceNameOrSubcategory q)
        (datasourcePairs docs) none).mp hscan
    constructor
    · rw [heq]
      simp only [true_iff]
      intro p hp
      have := hall p hp
      rw [cappedScore_eq] at this
      by_cases h3 : levenshtein (normaliseAWSResourceNameOrSubcategory q) p.2 ≤ 3
      · rw [if_pos h3] at this; simp at this
      · omega
    · rintro ⟨p, hp, hd⟩
      have := hall p hp
      rw [cappedScore_eq, if_pos hd] at this
      simp at this
  | some pr =>
    obtain ⟨bi, bs⟩ := pr
    rw [hscan] at heq
    dsimp only at heq
    rcases scanPairs_some_spec (normaliseAWSResourceNameOrSubcategory q)
        (datasourcePairs docs) none bi bs hscan with
      ⟨hacc, -⟩ | ⟨L1, c, L2, hsp, hcs, -, hpre, hglob⟩
    · simp at hacc
    rw [cappedScore_eq] at hcs
    by_cases hd3 : levenshtein (normaliseAWSResourceNameOrSubcategory q) c ≤ 3
    case neg => rw [if_neg hd3] at hcs; simp at hcs
    rw [if_pos hd3] at hcs
    have hbs : bs = levenshtein (normaliseAWSResourceNameOrSubcategory q) c := by
      simpa using hcs.symm
    have hmem : (bi, c) ∈ datasourcePairs docs := by
      rw [hsp]
      exact List.mem_append.mpr (Or.inr (by simp))
    have hbound := mem_corpusPairs_bounds (docs.map buildDatasourceCandidates) 0 (bi, c) hmem
    have hlt : bi < docs.length := by
      simpa using hbound.2
    have hminall : ∀ p ∈ datasourcePairs docs,
        levenshtein (normaliseAWSResourceNameOrSubcategory q) c ≤
          levenshtein (normaliseAWSResourceNameOrSubcategory q) p.2 := by
      intro p hp
      by_cases h3 : levenshtein (normaliseAWSResourceNameOrSubcategory q) p.2 ≤ 3
      · have := hglob p hp (levenshtein (normaliseAWSResourceNameOrSubcategory q) p.2)
          (by rw [cappedScore_eq, if_pos h3])
        omega
      · omega
    have hpreall : ∀ p ∈ L1,
        levenshtein (normaliseAWSResourceNameOrSubcategory q) c <
          levenshtein (normaliseAWSResourceNameOrSubcategory q) p.2 := by
      intro p hp
      by_cases h3 : levenshtein (normaliseAWSResourceNameOrSubcategory q) p.2 ≤ 3
      · have := hpre p hp (levenshtein (normaliseAWSResourceNameOrSubcategory q) p.2)
          (by rw [cappedScore_eq, if_pos h3])
        omega
      · omega
    constructor
    · constructor
      · intro hnf
        rw [hnf] at heq
        rw [List.getElem?_eq_getElem hlt] at heq
        dsimp only at heq
        by_cases hfp : docs[bi].file_path = []
        · rw [if_pos hfp] at heq; simp at heq
        · rw [if_neg hfp] at heq; simp at heq
      · intro hall
        have h2 : 3 < levenshtein (normaliseAWSResourceNameOrSubcategory q) c :=
          hall (bi, c) hmem
        omega
    · intro hex hfp
      clear hex
      refine ⟨bi, hlt, L1, c, L2, hsp, hd3, hminall, hpreall, ?_⟩
      rw [heq, List.getElem?_eq_getElem hlt]
      dsimp only
      have hfpne : docs[bi].file_path ≠ [] := hfp docs[bi] (docs.getElem_mem hlt)
      rw [if_neg hfpne]
      rw [List.get_eq_getElem]

/-! ### Claim theorems -/

/-- Claim C2: for every non-empty corpus with at least one eligible
candidate within the threshold, each resolver selects the document
achieving the global minimum edit distance over the entire eligible
candidate set (all documents, all fields), that minimum is at most the
threshold 3, and on ties the earliest candidate — documents in corpus
order, fields in builder order — wins: every candidate strictly before the
winner in the flattened candidate set has a strictly larger distance.
(Stated for non-empty queries and corpora whose documents carry a
non-empty locator, as produced by the file scanner.) -/
theorem resolvers_select_global_argmin :
    (∀ (q : List Char) (docs : List ResourceDoc),
      q ≠ [] →
      (∃ p ∈ resourcePairs docs,
        levenshtein (normaliseAWSResourceNameOrSubcategory q) p.2 ≤ 3) →
      (∀ d ∈ docs, d.file_path ≠ []) →
      ∃ bi, ∃ h : bi < docs.length, ∃ L1 c L2,
        resourcePairs docs = L1 ++ (bi, c) :: L2 ∧
        levenshtein (normaliseAWSResourceNameOrSubcategory q) c ≤ 3 ∧
        (∀ p ∈ resourcePairs docs,
          levenshtein (normaliseAWSResourceNameOrSubcategory q) c ≤
            levenshtein (normaliseAWSResourceNameOrSubcategory q) p.2) ∧
        (∀ p ∈ L1,
          levenshtein (normaliseAWSResourceNameOrSubcategory q) c <
            levenshtein (normaliseAWSResourceNameOrSubcategory q) p.2) ∧
        resolveResourceDocFileNameFromAWSResourceName q docs =
          .found ((docs.get ⟨bi, h⟩).file_path)) ∧
    (∀ (q : List Char) (docs : List DatasourceDoc),
      q ≠ [] →
      (∃ p ∈ datasourcePairs docs,
        levenshtein (normaliseAWSResourceNameOrSubcategory q) p.2 ≤ 3) →
      (∀ d ∈ docs, d.file_path ≠ []) →
      ∃ bi, ∃ h : bi < docs.length, ∃ L1 c L2,
        datasourcePairs docs = L1 ++ (bi, c) :: L2 ∧
        levenshtein (normaliseAWSResourceNameOrSubcategory q) c ≤ 3 ∧
        (∀ p ∈ datasourcePairs docs,
          levenshtein (normaliseAWSResourceNameOrSubcategory q) c ≤
            levenshtein (normaliseAWSResourceNameOrSubcategory q) p.2) ∧
        (∀ p ∈ L1,
          levenshtein (normaliseAWSResourceNameOrSubcategory q) c <
            levenshtein (normaliseAWSResourceNameOrSubcategory q) p.2) ∧
        resolveDatasourceDocFileNameFromAWSDatasourceName q docs =
          .found (if lastSegment ((docs.get ⟨bi, h⟩).file_path) = []
            then (docs.get ⟨bi, h⟩).file_path
            else lastSegment ((docs.get ⟨bi, h⟩).file_path))) :=
  ⟨fun q docs hq hex hfp => (resolveResource_spec q docs hq).2 hex hfp,
   fun q docs hq hex hfp => (resolveDatasource_spec q docs hq).2 hex hfp⟩

/-- Witness for C2 on concrete one-document corpora: the resource resolver
returns the matching document's file path, and the datasource resolver its
base file name. -/
theorem resolvers_select_global_argmin_witness :
    resolveResourceDocFileNameFromAWSResourceName "s3".toList
        [mkResourceDoc "ida".toList "s3".toList [] [] "dir/s3.html.markdown".toList] =
      .found "dir/s3.html.markdown".toList ∧
    resolveDatasourceDocFileNameFromAWSDatasourceName "ami".toList
        [mkDatasourceDoc "idb".toList "ami".toList [] [] "dir/ami.html.markdown".toList] =
      .found "ami.html.markdown".toList := by
  constructor
  · obtain ⟨bi, h, L1, c, L2, hsp, hle, hmin, hpre, hres⟩ :=
      resolvers_select_global_argmin.1 "s3".toList
        [mkResourceDoc "ida".toList "s3".toList [] [] "dir/s3.html.markdown".toList]
        (by decide)
        ⟨(0, "s3".toList), by decide, by decide⟩
        (by decide)
    have hbi : bi = 0 := by simpa [Nat.lt_one_iff] using h
    subst hbi
    simpa using hres
  · obtain ⟨bi, h, L1, c, L2, hsp, hle, hmin, hpre, hres⟩ :=
      resolvers_select_global_argmin.2 "ami".toList
        [mkDatasourceDoc "idb".toList "ami".toList [] [] "dir/ami.html.markdown".toList]
        (by decide)
        ⟨(0, "ami".toList), by decide, by decide⟩
        (by decide)
    have hbi : bi = 0 := by simpa [Nat.lt_one_iff] using h
    subst hbi
    simpa using hres

/-- Claim C5: for every non-empty query, the resource resolver returns the
user-facing "no match" result as an ordinary value — the `ResolveResult`
is a total function of the inputs, no exception is involved — exactly when
the corpus yields zero eligible candidates (empty corpus or all candidates
empty, so the eligible candidate set is empty) or every eligible
candidate's distance exceeds the threshold 3 (equivalently, the global
minimum exceeds the threshold). -/
theorem resolveResource_notFound_iff (q : List Char) (docs : List ResourceDoc)
    (hq : q ≠ []) :
    resolveResourceDocFileNameFromAWSResourceName q docs = .notFound ↔
      ∀ p ∈ resourcePairs docs,
        3 < levenshtein (normaliseAWSResourceNameOrSubcategory q) p.2 :=
  (resolveResource_spec q docs hq).1

/-- Witness for C5: a gibberish query on a small concrete corpus yields the
"no match" value. -/
theorem resolveResource_notFound_iff_witness :
    resolveResourceDocFileNameFromAWSResourceName "qqqzzzxxx".toList
        [mkResourceDoc "ida".toList "s3".toList [] [] "dir/s3.html.markdown".toList] =
      .notFound := by
  refine (resolveResource_notFound_iff "qqqzzzxxx".toList
    [mkResourceDoc "ida".toList "s3".toList [] [] "dir/s3.html.markdown".toList]
    (by decide)).mpr ?_
  decide

/-- Counterexample to Claim C3: a document whose subcategory is the
placeholder `"(missing)"` DOES contribute a candidate (the placeholder
normalises to the non-empty string `"missing"`), and the query `"missing"`
resolves to that document via its placeholder category at distance 0. -/
theorem placeholder_category_matches :
    normaliseAWSResourceNameOrSubcategory "(missing)".toList = "missing".toList ∧
    buildResourceCandidates
        (mkResourceDoc "x".toList "(missing)".toList [] [] "p".toList) =
      ["missing".toList, "p".toList, [], [], []] ∧
    resolveResourceDocFileNameFromAWSResourceName "missing".toList
        [mkResourceDoc "x".toList "(missing)".toList [] [] "p".toList] =
      .found "p".toList := by
  refine ⟨by decide, by decide, by decide⟩

/-- Claim C3 amended: the resolver skips exactly the candidates whose
normalised value is the empty string; a field equal to a placeholder
sentinel (`"(missing)"`/`"(malformed)"`) normalises to a non-empty string,
does become a candidate, and a query equal to the literal string
`"missing"` does match a document whose category is `"(missing)"` via that
placeholder candidate. -/
theorem resolver_skips_only_empty_candidates :
    (∀ (t : List Char) (cs : List (List Char)) (i : Nat) (acc : Option (Nat × Nat)),
      scanDoc t ([] :: cs) i acc = scanDoc t cs i acc) ∧
    (∀ (docs : List ResourceDoc),
      resourcePairs docs =
        corpusPairs (docs.map buildResourceCandidates) 0 ∧
      ∀ p ∈ resourcePairs docs, p.2 ≠ []) ∧
    normaliseAWSResourceNameOrSubcategory "(missing)".toList = "missing".toList ∧
    normaliseAWSResourceNameOrSubcategory "(malformed)".toList = "malformed".toList ∧
    resolveResourceDocFileNameFromAWSResourceName "missing".toList
        [mkResourceDoc "x".toList "(missing)".toList [] [] "p".toList] =
      .found "p".toList := by
  refine ⟨fun t cs i acc => rfl, ?_, by decide, by decide, by decide⟩
  intro docs
  refine ⟨rfl, ?_⟩
  have hgen : ∀ (cands : List (List (List Char))) (i : Nat),
      ∀ p ∈ corpusPairs cands i, p.2 ≠ [] := by
    intro cands
    induction cands with
    | nil => intro i p hp; simp [corpusPairs] at hp
    | cons cs rest ih =>
      intro i p hp
      rw [corpusPairs, List.mem_append] at hp
      rcases hp with hp | hp
      · obtain ⟨c, hcf, hc⟩ := List.mem_map.mp hp
        obtain ⟨-, hcne⟩ := List.mem_filter.mp hcf
        subst hc
        simpa [List.isEmpty_iff] using hcne
      · exact ih (i + 1) p hp
  exact hgen (docs.map buildResourceCandidates) 0

/-- Witness for the amended C3: on a concrete corpus, the eligible
candidate set contains the normalised placeholder and every eligible
candidate is non-empty. -/
theorem resolver_skips_only_empty_candidates_witness :
    ("missing".toList : List Char) ≠ [] ∧
    (0, "missing".toList) ∈ resourcePairs
      [mkResourceDoc "x".toList "(missing)".toList [] [] "p".toList] :=
  ⟨(resolver_skips_only_empty_candidates.2.1
      [mkResourceDoc "x".toList "(missing)".toList [] [] "p".toList]).2
      (0, "missing".toList) (by decide),
   by decide⟩

/-- Counterexample to Claim C4: the resolvers do not return the winning
document's identifier or the name of the matched field — only the locator.
Two corpora whose single documents have different identifiers and match
the query on different fields (subcategory versus page title) produce
identical resolver outputs, so neither the identifier nor the matched
field can be part of the result. -/
theorem resolver_output_no_identifier :
    resolveResourceDocFileNameFromAWSResourceName "x".toList
        [mkResourceDoc "ida".toList "x".toList [] [] "p".toList] =
      resolveResourceDocFileNameFromAWSResourceName "x".toList
        [mkResourceDoc "idb".toList [] "x".toList [] "p".toList] ∧
    (mkResourceDoc "ida".toList "x".toList [] [] "p".toList).id ≠
      (mkResourceDoc "idb".toList [] "x".toList [] "p".toList).id ∧
    buildResourceCandidates (mkResourceDoc "ida".toList "x".toList [] [] "p".toList) =
      ["x".toList, "p".toList, [], [], []] ∧
    buildResourceCandidates (mkResourceDoc "idb".toList [] "x".toList [] "p".toList) =
      [[], "p".toList, "x".toList, [], []] := by
  refine ⟨by decide, by decide, by decide, by decide⟩

/-- Claim C4 amended: on success the resolvers return only the winning
document's locator — the resource resolver the full `file_path`, the
datasource resolver its final path segment (falling back to the full path
when that segment is empty); the matched field name is tracked internally
but not part of the result. -/
theorem resolver_success_returns_locator :
    (∀ (q : List Char) (docs : List ResourceDoc) (t : List Char),
      resolveResourceDocFileNameFromAWSResourceName q docs = .found t →
      ∃ bi, ∃ h : bi < docs.length, t = (docs.get ⟨bi, h⟩).file_path) ∧
    (∀ (q : List Char) (docs : List DatasourceDoc) (t : List Char),
      resolveDatasourceDocFileNameFromAWSDatasourceName q docs = .found t →
      ∃ bi, ∃ h : bi < docs.length,
        t = if lastSegment ((docs.get ⟨bi, h⟩).file_path) = []
          then (docs.get ⟨bi, h⟩).file_path
          else lastSegment ((docs.get ⟨bi, h⟩).file_path)) := by
  constructor
  · intro q docs t hres
    by_cases hq : q = []
    · unfold resolveResourceDocFileNameFromAWSResourceName at hres
      rw [if_pos hq] at hres
      simp at hres
    · rw [resolveResource_eq q docs hq] at hres
      cases hscan : scanPairs (normaliseAWSResourceNameOrSubcategory q)
          (resourcePairs docs) none with
      | none => rw [hscan] at hres; simp at hres
      | some pr =>
        obtain ⟨bi, bs⟩ := pr
        rw [hscan] at hres
        dsimp only at hres
        cases hget : docs[bi]? with
        | none => rw [hget] at hres; simp at hres
        | some r =>
          rw [hget] at hres
          dsimp only at hres
          obtain ⟨hlt, hr⟩ := List.getElem?_eq_some.mp hget
          by_cases hfp : r.file_path = []
          · rw [if_pos hfp] at hres; simp at hres
          · rw [if_neg hfp] at hres
            simp only [ResolveResult.found.injEq] at hres
            exact ⟨bi, hlt, by rw [← hres, List.get_eq_getElem, hr]⟩
  · intro q docs t hres
    by_cases hq : q = []
    · unfold resolveDatasourceDocFileNameFromAWSDatasourceName at hres
      rw [if_pos hq] at hres
      simp at hres
    · rw [resolveDatasource_eq q docs hq] at hres
      cases hscan : scanPairs (normaliseAWSResourceNameOrSubcategory q)
          (datasourcePairs docs) none with
      | none => rw [hscan] at hres; simp at hres
      | some pr =>
        obtain ⟨bi, bs⟩ := pr
        rw [hscan] at hres
        dsimp only at hres
        cases hget : docs[bi]? with
        | none => rw [hget] at hres; simp at hres
        | some r =>
          rw [hget] at hres
          dsimp only at hres
          obtain ⟨hlt, hr⟩ := List.getElem?_eq_some.mp hget
          by_cases hfp : r.file_path = []
          · rw [if_pos hfp] at hres; simp at hres
          · rw [if_neg hfp] at hres
            simp only [ResolveResult.found.injEq] at hres
            exact ⟨bi, hlt, by rw [← hres, List.get_eq_getElem, hr]⟩

/-- Witness for the amended C4: at a concrete corpus, the success payload
of the resource resolver is exactly the winning document's locator. -/
theorem resolver_success_returns_locator_witness :
    resolveResourceDocFileNameFromAWSResourceName "x".toList
        [mkResourceDoc "ida".toList "x".toList [] [] "p".toList] =
      .found "p".toList ∧
    "p".toList = (mkResourceDoc "ida".toList "x".toList [] [] "p".toList).file_path := by
  constructor
  · decide
  · obtain ⟨bi, h, ht⟩ :=
      resolver_success_returns_locator.1 "x".toList
        [mkResourceDoc "ida".toList "x".toList [] [] "p".toList] "p".toList (by decide)
    have hbi : bi = 0 := by simpa [Nat.lt_one_iff] using h
    subst hbi
    simpa using ht

/-- Claim C6: `levenshtein` computes the classic Levenshtein distance —
`levenshtein a b` is the length of some sequence of single-character
insertions, deletions and substitutions transforming `a` into `b`, and no
shorter sequence exists; and the distance from the empty string is the
length of the other string. -/
theorem levenshtein_min_edits (a b : List Char) :
    EditSeq a b (levenshtein a b) ∧
    (∀ n, EditSeq a b n → levenshtein a b ≤ n) ∧
    levenshtein [] b = b.length :=
  ⟨levenshtein_editSeq a b, fun _ h => levenshtein_le_of_editSeq h,
    levenshtein_nil_left b⟩

/-- Witness for C6: a single substitution transforms `"a"` into `"b"`, so
the computed distance is at most 1 (and the edit sequence of computed
length exists). -/
theorem levenshtein_min_edits_witness :
    EditSeq "a".toList "b".toList (levenshtein "a".toList "b".toList) ∧
    levenshtein "a".toList "b".toList ≤ 1 := by
  have hseq : EditSeq "a".toList "b".toList 1 :=
    .step (EditStep.substitute ['a'] 0 'b' (by decide)) (.refl ['b'])
  exact ⟨(levenshtein_min_edits "a".toList "b".toList).1,
    (levenshtein_min_edits "a".toList "b".toList).2.1 1 hseq⟩

/-- Counterexample to Claim C7: the normaliser is not idempotent; on
`"awsaws"` the first pass strips one vendor token leaving `"aws"`, and a
second pass strips again, leaving the empty string. -/
theorem normalise_not_idempotent :
    normaliseAWSResourceNameOrSubcategory
        (normaliseAWSResourceNameOrSubcategory "awsaws".toList) ≠
      normaliseAWSResourceNameOrSubcategory "awsaws".toList := by
  decide

/-- Claim C7 amended: the normaliser is idempotent on every string whose
normalised form does not itself begin with a vendor token (`"aws"` or
`"amazon"`); it is not idempotent in general. -/
theorem normalise_idempotent_of_no_vendor_head (s : List Char)
    (h1 : (normaliseAWSResourceNameOrSubcategory s).take 3 ≠ ['a', 'w', 's'])
    (h2 : (normaliseAWSResourceNameOrSubcategory s).take 6 ≠ ['a', 'm', 'a', 'z', 'o', 'n']) :
    normaliseAWSResourceNameOrSubcategory (normaliseAWSResourceNameOrSubcategory s) =
      normaliseAWSResourceNameOrSubcategory s := by
  have halnum : ∀ c ∈ normaliseAWSResourceNameOrSubcategory s, isAsciiAlnum c = true := by
    intro c hc
    exact (List.mem_filter.mp hc).2
  have hmap : (normaliseAWSResourceNameOrSubcategory s).map toLowerChar =
      normaliseAWSResourceNameOrSubcategory s := by
    have : ∀ c ∈ normaliseAWSResourceNameOrSubcategory s, toLowerChar c = c := by
      intro c hc
      have := halnum c hc
      simp only [isAsciiAlnum, Bool.or_eq_true, Bool.and_eq_true,
        decide_eq_true_eq] at this
      unfold toLowerChar
      rw [if_neg (by omega)]
    calc (normaliseAWSResourceNameOrSubcategory s).map toLowerChar
        = (normaliseAWSResourceNameOrSubcategory s).map id := List.map_congr_left this
      _ = normaliseAWSResourceNameOrSubcategory s := List.map_id _
  conv_lhs => rw [normaliseAWSResourceNameOrSubcategory, hmap]
  rw [stripVendorToken, if_neg h1, if_neg h2]
  exact List.filter_eq_self.mpr halnum

/-- Witness for the amended C7: `"AWS_Bucket"` normalises to `"bucket"`,
which does not start with a vendor token, and normalising again is the
identity. -/
theorem normalise_idempotent_witness :
    normaliseAWSResourceNameOrSubcategory
        (normaliseAWSResourceNameOrSubcategory "AWS_Bucket".toList) =
      normaliseAWSResourceNameOrSubcategory "AWS_Bucket".toList :=
  normalise_idempotent_of_no_vendor_head "AWS_Bucket".toList (by decide) (by decide)

/-- Claim C8: `levenshtein` is a metric on strings — reflexivity
(`levenshtein s s = 0`), symmetry, and the triangle inequality. -/
theorem levenshtein_metric (a b c : List Char) :
    levenshtein a a = 0 ∧
    levenshtein a b = levenshtein b a ∧
    levenshtein a c ≤ levenshtein a b + levenshtein b c :=
  ⟨levenshtein_self a, levenshtein_comm a b, levenshtein_triangle a b c⟩

/-- Counterexample to Claim C9: with the query `"aws"` (non-empty, but
normalising to the empty string) every candidate scores its own length,
and the resolver returns the document achieving the MINIMUM candidate
length — here document 1 with its length-1 candidate `"q"` — not the
document owning the earliest candidate of length at most 3 (document 0,
whose first candidate `"xyz"` has length 3). -/
theorem empty_norm_query_counterexample :
    normaliseAWSResourceNameOrSubcategory "aws".toList = [] ∧
    resourcePairs
        [mkResourceDoc [] "xyz".toList [] [] "p0".toList,
         mkResourceDoc [] "q".toList [] [] "p1".toList] =
      [(0, "xyz".toList), (0, "p0".toList), (1, "q".toList), (1, "p1".toList)] ∧
    ("xyz".toList).length ≤ 3 ∧
    resolveResourceDocFileNameFromAWSResourceName "aws".toList
        [mkResourceDoc [] "xyz".toList [] [] "p0".toList,
         mkResourceDoc [] "q".toList [] [] "p1".toList] =
      .found "p1".toList ∧
    (ResolveResult.found "p1".toList ≠ ResolveResult.found "p0".toList) := by
  refine ⟨by decide, by decide, by decide, by decide, by decide⟩

/-- Claim C9 amended: a non-empty query normalising to the empty string is
not rejected; every eligible candidate then scores its own normalised
length, so the resolver returns the document owning the earliest candidate
achieving the minimum normalised length (which is at most 3), and the
"no match" result exactly when every eligible candidate is longer than 3
characters. -/
theorem empty_norm_query_resolution (q : List Char) (docs : List ResourceDoc)
    (hq : q ≠ []) (hnorm : normaliseAWSResourceNameOrSubcategory q = []) :
    (resolveResourceDocFileNameFromAWSResourceName q docs = .notFound ↔
      ∀ p ∈ resourcePairs docs, 3 < p.2.length) ∧
    ((∃ p ∈ resourcePairs docs, p.2.length ≤ 3) →
      (∀ d ∈ docs, d.file_path ≠ []) →
      ∃ bi, ∃ h : bi < docs.length, ∃ L1 c L2,
        resourcePairs docs = L1 ++ (bi, c) :: L2 ∧ c.length ≤ 3 ∧
        (∀ p ∈ resourcePairs docs, c.length ≤ p.2.length) ∧
        (∀ p ∈ L1, c.length < p.2.length) ∧
        resolveResourceDocFileNameFromAWSResourceName q docs =
          .found ((docs.get ⟨bi, h⟩).file_path)) := by
  have hspec := resolveResource_spec q docs hq
  rw [hnorm] at hspec
  simpa only [levenshtein_nil_left] using hspec

/-- Witness for the amended C9: the query `"aws"` on a corpus whose only
candidates are longer than 3 characters yields the "no match" value. -/
theorem empty_norm_query_resolution_witness :
    resolveResourceDocFileNameFromAWSResourceName "aws".toList
        [mkResourceDoc [] "abcdefgh".toList [] [] "dir/abcdefgh.html.markdown".toList] =
      .notFound :=
  (empty_norm_query_resolution "aws".toList
    [mkResourceDoc [] "abcdefgh".toList [] [] "dir/abcdefgh.html.markdown".toList]
    (by decide) (by decide)).1.mpr (by decide)

/-- Claim C10: `removeAwsPrefixFromFileName` strips exactly a literal
lower-case `"aws-"` or `"aws_"` at the start of the file name and leaves
every other input unchanged — including upper-case variants such as
`"AWS-..."` and the bare separator-less `"aws..."` — unlike the
case-insensitive normaliser used for fuzzy matching, which does strip
`"AWS-"`. -/
theorem removeAwsPrefixFromFileName_spec (s : List Char) :
    (∀ r, s = "aws-".toList ++ r → removeAwsPrefixFromFileName s = r) ∧
    (∀ r, s = "aws_".toList ++ r → removeAwsPrefixFromFileName s = r) ∧
    (s.take 4 ≠ "aws-".toList → s.take 4 ≠ "aws_".toList →
      removeAwsPrefixFromFileName s = s) ∧
    removeAwsPrefixFromFileName "AWS-Bucket".toList = "AWS-Bucket".toList ∧
    removeAwsPrefixFromFileName "awsBucket".toList = "awsBucket".toList ∧
    normaliseAWSResourceNameOrSubcategory "AWS-Bucket".toList =
      normaliseAWSResourceNameOrSubcategory "Bucket".toList := by
  refine ⟨?_, ?_, ?_, by decide, by decide, by decide⟩
  · intro r hr
    subst hr
    show removeAwsPrefixFromFileName (['a', 'w', 's', '-'] ++ r) = r
    simp [removeAwsPrefixFromFileName]
  · intro r hr
    subst hr
    show removeAwsPrefixFromFileName (['a', 'w', 's', '_'] ++ r) = r
    simp [removeAwsPrefixFromFileName]
  · intro h1 h2
    have e1 : "aws-".toList = ['a', 'w', 's', '-'] := rfl
    have e2 : "aws_".toList = ['a', 'w', 's', '_'] := rfl
    rw [e1] at h1
    rw [e2] at h2
    unfold removeAwsPrefixFromFileName
    rw [if_neg h1, if_neg h2]

/-- Witness for C10: the prefixed inputs are stripped, the others are
untouched. -/
theorem removeAwsPrefixFromFileName_spec_witness :
    removeAwsPrefixFromFileName "aws-foo".toList = "foo".toList ∧
    removeAwsPrefixFromFileName "aws_foo".toList = "foo".toList ∧
    removeAwsPrefixFromFileName "other".toList = "other".toList :=
  ⟨(removeAwsPrefixFromFileName_spec "aws-foo".toList).1 "foo".toList (by decide),
   (removeAwsPrefixFromFileName_spec "aws_foo".toList).2.1 "foo".toList (by decide),
   (removeAwsPrefixFromFileName_spec "other".toList).2.2.1 (by decide) (by decide)⟩

end McpDocs
